import Mathlib

/-!
Verification of the Retrieval core of the study-with-active-recall repository:
a shallow embedding of `backend/app/core/chunk.py` (TextChunker),
`backend/app/core/embed.py` (EmbeddingService.validate_embedding) and
`backend/app/core/rag.py` (FAISSIndex, RAGService), together with proofs of
the specification claims about them.

Modelling conventions:
* Python `str` is Lean `String`; character-level operations work on `String.data`.
  Python whitespace/case predicates are modelled at ASCII granularity
  (the regressions exercised here are ASCII).
* The tiktoken encoding (external library) is an abstract `Enc` record with
  `encode`/`decode`; `charEnc` is a concrete executable instantiation
  (one token per character, exact round-trip) used for concrete evaluations.
* Python floats are modelled by `F`: an exact rational payload plus the
  non-finite values NaN/±Inf that `np.isfinite` rejects.
* The faiss library (external) enters through an abstract row-wise
  `norm : Vec → Vec` (faiss.normalize_L2 composed with the float32 cast) and
  through `faissSearchIP`, a model of `IndexFlatIP.search`: exact inner-product
  scores, results sorted by non-increasing score, `k'` hits for `k' ≤ ntotal`.
* Disk persistence (`faiss.write_index`/`read_index`, pickle) is a pair of
  association lists keyed by the path strings the code builds.
-/

namespace ActiveRecall

/-- The `Settings` fields used by the retrieval core (backend/app/core/settings.py). -/
structure Settings where
  chunk_size : Nat
  chunk_overlap : Nat
  faiss_dimension : Nat
  faiss_dir : String

/-- Default settings values from settings.py. -/
def settings : Settings :=
  { chunk_size := 800, chunk_overlap := 150, faiss_dimension := 768,
    faiss_dir := "./data/faiss" }

/-! ## Python string helpers -/

/-- ASCII model of Python's `\s` / `str.strip` whitespace class. -/
def isPyWs (c : Char) : Bool :=
  c == ' ' || c == '\t' || c == '\n' || c == '\r' || c == '\x0b' || c == '\x0c'

/-- Python `str.strip()` (ASCII whitespace model). -/
def pyStrip (s : String) : String :=
  ⟨((s.data.dropWhile isPyWs).reverse.dropWhile isPyWs).reverse⟩

/-- Python `str.split('\n')`: pieces between newline characters, empties kept. -/
def splitNl : List Char → List (List Char)
  | [] => [[]]
  | c :: rest =>
    if c == '\n' then [] :: splitNl rest
    else
      match splitNl rest with
      | [] => [[c]]
      | p :: ps => (c :: p) :: ps

/-- A char is cased (ASCII model). -/
def isCased (c : Char) : Bool := c.isUpper || c.isLower

/-- Python `str.isupper()`: some cased char, and every cased char uppercase. -/
def pyIsUpper (s : String) : Bool :=
  s.data.any isCased && s.data.all (fun c => !isCased c || c.isUpper)

/-- Scanner for Python `str.istitle()`: uppercase only after uncased,
lowercase only after cased. -/
def istitleGo : Bool → List Char → Bool
  | _, [] => true
  | prevCased, c :: rest =>
    if c.isUpper then !prevCased && istitleGo true rest
    else if c.isLower then prevCased && istitleGo true rest
    else istitleGo false rest

/-- Python `str.istitle()`. -/
def pyIsTitle (s : String) : Bool :=
  s.data.any isCased && istitleGo false s.data

/-- Scanner for Python `str.title()`. -/
def titleGo : Bool → List Char → List Char
  | _, [] => []
  | prevCased, c :: rest =>
    if isCased c then (if prevCased then c.toLower else c.toUpper) :: titleGo true rest
    else c :: titleGo false rest

/-- Python `str.title()`. -/
def pyTitle (s : String) : String := ⟨titleGo false s.data⟩

/-- Helper: `dropWhile` never lengthens a list (termination measure). -/
theorem dropWhile_length_le (p : α → Bool) (l : List α) :
    (l.dropWhile p).length ≤ l.length := by
  induction l with
  | nil => simp
  | cons a l ih =>
    by_cases h : p a
    · simpa [List.dropWhile, h] using Nat.le_succ_of_le ih
    · simp [List.dropWhile, h]

/-- Python `str.split()` with no argument: maximal runs of non-whitespace. -/
def pyWords : List Char → List (List Char)
  | [] => []
  | c :: rest =>
    if isPyWs c then pyWords rest
    else (c :: rest.takeWhile (fun x => !isPyWs x)) ::
      pyWords (rest.dropWhile (fun x => !isPyWs x))
termination_by l => l.length
decreasing_by
  · simp only [List.length_cons]; omega
  · simp only [List.length_cons]
    have := dropWhile_length_le (fun x => !isPyWs x) rest
    omega

/-- Word count of a string, Python `len(s.split())`. -/
def wordCount (s : String) : Nat := (pyWords s.data).length

/-- Python `str.endswith(c)` for a single character. -/
def pyEndsWith (s : String) (c : Char) : Bool := s.data.getLast? == some c

/-- Head of a char list is whitespace. -/
def headIsWs : List Char → Bool
  | [] => false
  | c :: _ => isPyWs c

/-! ## TextChunker._preprocess_text (chunk.py lines 46-59)

Each `re.sub` of the source is modelled as a character-list scanner with the
greedy-with-backtracking semantics of the concrete pattern. -/

/-- Emit one maximal whitespace run for `re.sub(r'\n\s*\n\s*\n', '\n\n', _)`:
a run holding at least three newlines matches from its first through its last
newline (greedy with backtracking), so that span collapses to two newlines
while the run's non-newline prefix and suffix survive; other runs pass
through unchanged. -/
def emitNlRun (run : List Char) : List Char :=
  if run.count '\n' ≥ 3 then
    (run.takeWhile (fun c => c != '\n')) ++ '\n' :: '\n' ::
      ((run.reverse.takeWhile (fun c => c != '\n')).reverse)
  else run

/-- Scanner for `re.sub(r'\n\s*\n\s*\n', '\n\n', text)`: gather each maximal
whitespace run (reversed in `run`) and emit it through `emitNlRun`. Matches
never span two runs, and a run holds at most one match. -/
def collapseNlGo (run : List Char) : List Char → List Char
  | [] => emitNlRun run.reverse
  | c :: rest =>
    if isPyWs c then collapseNlGo (c :: run) rest
    else emitNlRun run.reverse ++ c :: collapseNlGo [] rest

/-- Model of `re.sub(r'\n\s*\n\s*\n', '\n\n', text)`. -/
def collapseNl (l : List Char) : List Char := collapseNlGo [] l

/-- Scanner for `re.sub(r'[ \t]+', ' ', text)`: `inRun` records whether the
previous character belonged to a space/tab run (already emitted as one
space). -/
def collapseSpacesGo : Bool → List Char → List Char
  | _, [] => []
  | inRun, c :: rest =>
    if c == ' ' || c == '\t' then
      if inRun then collapseSpacesGo true rest
      else ' ' :: collapseSpacesGo true rest
    else c :: collapseSpacesGo false rest

/-- Model of `re.sub(r'[ \t]+', ' ', text)`: collapse space/tab runs to one space. -/
def collapseSpaces (l : List Char) : List Char := collapseSpacesGo false l

/-- Model of `text.replace('\r\n', '\n').replace('\r', '\n')`. -/
def normEol : List Char → List Char
  | [] => []
  | '\r' :: '\n' :: rest => '\n' :: normEol rest
  | '\r' :: rest => '\n' :: normEol rest
  | c :: rest => c :: normEol rest

/-- Match attempt for `^\s*\d+\s*$` (MULTILINE) at a line-start position:
returns the number of characters the leftmost greedy match consumes.
`\s` crosses newlines; `$` holds before a newline or at the end. -/
def tryNumMatch (l : List Char) : Option Nat :=
  let a := l.takeWhile isPyWs
  let r1 := l.drop a.length
  let d := r1.takeWhile Char.isDigit
  if d.isEmpty then none
  else
    let r2 := r1.drop d.length
    let b := r2.takeWhile isPyWs
    if (r2.drop b.length).isEmpty then some (a.length + d.length + b.length)
    else
      -- `$` must sit inside the whitespace run, just before its last newline
      let t := (b.reverse.takeWhile (fun c => c != '\n')).length
      if t < b.length then some (a.length + d.length + (b.length - t - 1))
      else none

/-- Match attempt for `^Page \d+ of \d+$` (MULTILINE) at a line-start position. -/
def tryPageMatch (l : List Char) : Option Nat :=
  match l with
  | 'P' :: 'a' :: 'g' :: 'e' :: ' ' :: r1 =>
    let d1 := r1.takeWhile Char.isDigit
    if d1.isEmpty then none
    else
      match r1.drop d1.length with
      | ' ' :: 'o' :: 'f' :: ' ' :: r2 =>
        let d2 := r2.takeWhile Char.isDigit
        if d2.isEmpty then none
        else if (r2.drop d2.length).isEmpty || (r2.drop d2.length).head? == some '\n' then
          some (5 + d1.length + 4 + d2.length)
        else none
      | _ => none
  | _ => none

/-- Model of `re.sub(pat, '', text, flags=re.MULTILINE)` driver. State: `skip` is the
number of matched characters still to discard; when `skip = 0`, `atCaret`
tells whether the scanner sits at a `^` position (start of text or just after
a newline). A successful match (our matchers always consume at least one
character; length 0 is treated as no match) is deleted and scanning resumes
after it, off-caret. -/
def subMLGo (tryMatch : List Char → Option Nat) : Nat → Bool → List Char → List Char
  | 0, true, l =>
    match tryMatch l, l with
    | some (n + 1), _ :: rest => subMLGo tryMatch n false rest
    | some (_ + 1), [] => []
    | some 0, [] => []
    | some 0, c :: rest =>
      if c == '\n' then '\n' :: subMLGo tryMatch 0 true rest
      else c :: subMLGo tryMatch 0 false rest
    | none, [] => []
    | none, c :: rest =>
      if c == '\n' then '\n' :: subMLGo tryMatch 0 true rest
      else c :: subMLGo tryMatch 0 false rest
  | 0, false, [] => []
  | 0, false, c :: rest =>
    if c == '\n' then '\n' :: subMLGo tryMatch 0 true rest
    else c :: subMLGo tryMatch 0 false rest
  | _ + 1, _, [] => []
  | n + 1, _, _ :: rest => subMLGo tryMatch n false rest

/-- Model of `re.sub(pat, '', text, flags=re.MULTILINE)`, starting at a `^` position. -/
def subML (tryMatch : List Char → Option Nat) (l : List Char) : List Char :=
  subMLGo tryMatch 0 true l

/-- Model of `TextChunker._preprocess_text`. -/
def preprocessText (text : String) : String :=
  pyStrip ⟨subML tryPageMatch (subML tryNumMatch
    (normEol (collapseSpaces (collapseNl text.data))))⟩

/-! ## TextChunker heading detection and sectioning (chunk.py lines 61-133) -/

/-- A document section as built by `_identify_sections`. -/
structure DocSection where
  heading : String
  content : String
  level : Nat
  deriving DecidableEq, Repr, Inhabited

/-- Component counter for the numbered-heading pattern `(\d+(?:\.\d+)*)`:
given the text after the leading digit run, consume further `.digits`
components; returns (number of extra components, remaining text). -/
def numCompsGo (l : List Char) (n : Nat) : Nat × List Char :=
  match l with
  | '.' :: rest =>
    let ds := rest.takeWhile Char.isDigit
    if ds.isEmpty then (n, l) else numCompsGo (rest.drop ds.length) (n + 1)
  | _ => (n, l)
termination_by l.length
decreasing_by
  simp only [List.length_cons, List.length_drop]
  rename_i h
  have : ¬(rest.takeWhile Char.isDigit).isEmpty := by assumption
  have hlen : 1 ≤ (rest.takeWhile Char.isDigit).length := by
    cases hE : rest.takeWhile Char.isDigit with
    | nil => simp [hE] at this
    | cons x xs => simp [hE]
  omega

/-- Model of `TextChunker._detect_heading`: markdown `#` headings, numbered headings,
ALL-CAPS lines, then short title-case lines; first match wins. -/
def detectHeading (line : String) : Option (String × Nat) :=
  let l := line.data
  let hashes := l.takeWhile (fun c => c == '#')
  let restH := l.drop hashes.length
  if 1 ≤ hashes.length && hashes.length ≤ 6 && headIsWs restH &&
      !(restH.dropWhile isPyWs).isEmpty then
    some (pyStrip ⟨restH.dropWhile isPyWs⟩, hashes.length)
  else
    let d1 := l.takeWhile Char.isDigit
    let afterNum :=
      if d1.isEmpty then none
      else
        let (cnt, r) := numCompsGo (l.drop d1.length) 1
        let r2 := match r with
          | '.' :: t => t
          | _ => r
        if headIsWs r2 && !(r2.dropWhile isPyWs).isEmpty then
          some (pyStrip ⟨r2.dropWhile isPyWs⟩, cnt)
        else none
    match afterNum with
    | some h => some h
    | none =>
      if pyIsUpper line && 3 < line.length && line.length < 100 then
        some (pyTitle line, 1)
      else if pyIsTitle line && line.length < 100 && !pyEndsWith line '.' &&
          !pyEndsWith line ':' && (pyWords l).length ≤ 10 then
        some (line, 2)
      else none

/-- Loop body of `_identify_sections`: fold over the stripped nonempty lines,
starting a new section at each detected heading. -/
def identifyGo : List (List Char) → DocSection → List DocSection
  | [], cur => if pyStrip cur.content != "" then [cur] else []
  | ln :: rest, cur =>
    let line := pyStrip ⟨ln⟩
    if line == "" then identifyGo rest cur
    else
      match detectHeading line with
      | some (t, lvl) =>
        (if pyStrip cur.content != "" then [cur] else []) ++
          identifyGo rest ⟨t, line ++ "\n", lvl⟩
      | none => identifyGo rest { cur with content := cur.content ++ line ++ "\n" }

/-- Model of `TextChunker._identify_sections`. -/
def identifySections (text : String) : List DocSection :=
  identifyGo (splitNl text.data) ⟨"", "", 0⟩

/-! ## TextChunker chunking (chunk.py lines 135-244) -/

/-- The tokenizer collaborator (tiktoken `cl100k_base` in the source):
an external library accessed only through `encode`/`decode`. -/
structure Enc where
  encode : String → List Nat
  decode : List Nat → String

/-- Executable tokenizer instantiation: one token per character with an exact
`decode ∘ encode` round-trip, used for concrete evaluations. -/
def charEnc : Enc where
  encode s := s.data.map Char.toNat
  decode l := ⟨l.map Char.ofNat⟩

/-- Model of `TextChunker.count_tokens`. -/
def countTokens (enc : Enc) (text : String) : Nat := (enc.encode text).length

/-- The `TextChunker` object: configuration read from `settings` plus the
tokenizer collaborator. -/
structure Chunker where
  chunk_size : Nat
  chunk_overlap : Nat
  enc : Enc

/-- Model of `TextChunker.__init__`: chunk size and overlap come from `settings`. -/
def Chunker.init (enc : Enc) : Chunker :=
  ⟨settings.chunk_size, settings.chunk_overlap, enc⟩

/-- Python list slice `tokens[-k:]` (note `[-0:]` is the whole list). -/
def pyLastSlice (l : List Nat) (k : Nat) : List Nat :=
  if k = 0 then l else l.drop (l.length - k)

/-- Model of `TextChunker._create_overlap`. -/
def createOverlap (ch : Chunker) (text : String) : String :=
  let tokens := ch.enc.encode text
  if tokens.length ≤ ch.chunk_overlap then text ++ " "
  else ch.enc.decode (pyLastSlice tokens ch.chunk_overlap) ++ " "

/-- Scanner for `re.split(r'(?<=[.!?])\s+', text)`: cut at each whitespace run
preceded by `.`, `!` or `?`; the run is the separator. `acc` holds the
current piece reversed; `inSep = true` while the separator's whitespace run is
being consumed (then `acc` is the empty start of the next piece). -/
def sentScanGo : Bool → List Char → List Char → List (List Char)
  | _, acc, [] => [acc.reverse]
  | true, acc, c :: rest =>
    if isPyWs c then sentScanGo true acc rest
    else sentScanGo false [c] rest
  | false, acc, c :: rest =>
    if isPyWs c && (acc.head? == some '.' || acc.head? == some '!' ||
        acc.head? == some '?') then
      acc.reverse :: sentScanGo true [] rest
    else sentScanGo false (c :: acc) rest

/-- Model of `TextChunker._split_into_sentences`: regex split, then strip each piece and
drop the empty ones. -/
def splitIntoSentences (text : String) : List String :=
  ((sentScanGo false [] text.data).map (fun p => pyStrip ⟨p⟩)).filter
    (fun s => s != "")

/-- A chunk record as built by `_create_chunks` / `_split_section`. -/
structure Chunk where
  chunk_index : Nat
  content : String
  heading : String
  level : Nat
  token_count : Nat
  metadata : List (String × String)
  deriving DecidableEq, Repr, Inhabited

/-- Loop of `_split_section`: greedy sentence packing with overlap seeding.
`buf`/`tokens` are the running `current_chunk`/`current_tokens`. -/
def splitGo (ch : Chunker) (heading : String) (level : Nat)
    (md : List (String × String)) :
    List String → String → Nat → Nat → List Chunk
  | [], buf, tokens, idx =>
    if pyStrip buf ≠ "" then [⟨idx, pyStrip buf, heading, level, tokens, md⟩] else []
  | s :: rest, buf, tokens, idx =>
    let st := countTokens ch.enc s
    if tokens + st > ch.chunk_size ∧ buf ≠ "" then
      ⟨idx, pyStrip buf, heading, level, tokens, md⟩ ::
        splitGo ch heading level md rest (createOverlap ch buf ++ s)
          (countTokens ch.enc (createOverlap ch buf ++ s)) (idx + 1)
    else splitGo ch heading level md rest (buf ++ s) (tokens + st) idx

/-- Model of `TextChunker._split_section`. -/
def splitSection (ch : Chunker) (section_ : DocSection) (start_index : Nat)
    (md : Option (List (String × String))) : List Chunk :=
  splitGo ch section_.heading section_.level (md.getD [])
    (splitIntoSentences section_.content) "" 0 start_index

/-- Loop of `_create_chunks` over sections. -/
def createChunksGo (ch : Chunker) (md : Option (List (String × String))) :
    List DocSection → Nat → List Chunk
  | [], _ => []
  | s :: rest, idx =>
    let st := countTokens ch.enc s.content
    if st ≤ ch.chunk_size then
      ⟨idx, pyStrip s.content, s.heading, s.level, st, md.getD []⟩ ::
        createChunksGo ch md rest (idx + 1)
    else
      let sc := splitSection ch s idx md
      sc ++ createChunksGo ch md rest (idx + sc.length)

/-- Model of `TextChunker._create_chunks`. -/
def createChunks (ch : Chunker) (sections : List DocSection)
    (md : Option (List (String × String))) : List Chunk :=
  createChunksGo ch md sections 0

/-- Model of `TextChunker.chunk_text`: preprocess, identify sections, create chunks. -/
def chunkText (ch : Chunker) (text : String)
    (md : Option (List (String × String))) : List Chunk :=
  createChunks ch (identifySections (preprocessText text)) md

/-! ## Floats, vectors, metadata (embed.py / rag.py data model) -/

/-- Python float model: exact rational payload plus the non-finite values
that `np.isfinite` rejects. -/
inductive F where
  | fin : ℚ → F
  | nan : F
  | inf : F
  | ninf : F
  deriving DecidableEq, Repr, Inhabited

/-- Model of `np.isfinite`. -/
def F.isFinite : F → Bool
  | .fin _ => true
  | _ => false

/-- Rational payload (exact on finite floats; non-finite values are mapped to 0,
which is only ever applied to vectors that passed finiteness validation). -/
def F.toRat : F → ℚ
  | .fin q => q
  | _ => 0

/-- An embedding vector. -/
abbrev Vec := List F

/-- The metadata record fields that `FAISSIndex.search` reads
(`chunk_id` may be absent: `dict.get` returns `None`). -/
structure Meta where
  chunk_id : Option String
  content : String
  heading : String
  deriving DecidableEq, Repr, Inhabited

/-- Model of `EmbeddingService.validate_embedding` (embed.py lines 108-122):
non-empty, expected dimension, all entries finite. -/
def validate_embedding (dimension : Nat) (embedding : Vec) : Bool :=
  if embedding.isEmpty then false
  else if embedding.length != dimension then false
  else if embedding.any (fun v => !v.isFinite) then false
  else true

/-- A search-result record as built by `FAISSIndex.search`. -/
structure SearchResult where
  chunk_id : Option String
  content : String
  heading : String
  score : ℚ
  metadata : Meta
  deriving DecidableEq, Repr, Inhabited

/-! ## FAISSIndex (rag.py lines 13-245) -/

/-- In-memory state of a `FAISSIndex` object. -/
structure FAISSIndex where
  collection_id : String
  dimension : Nat
  index : Option (List Vec)
  metadata : List Meta
  deriving DecidableEq, Repr

/-- Model of `FAISSIndex.__init__`: dimension from `settings`, nothing loaded. -/
def FAISSIndex.init (collection_id : String) : FAISSIndex :=
  ⟨collection_id, settings.faiss_dimension, none, []⟩

/-- Model of `self.index_path`. -/
def indexPath (st : FAISSIndex) : String :=
  settings.faiss_dir ++ "/" ++ st.collection_id ++ ".index"

/-- Model of `self.metadata_path`. -/
def metadataPath (st : FAISSIndex) : String :=
  settings.faiss_dir ++ "/" ++ st.collection_id ++ ".metadata"

/-- Model of `self.index.ntotal` (0 when no index object is loaded). -/
def ntotal (st : FAISSIndex) : Nat :=
  match st.index with
  | some xb => xb.length
  | none => 0

/-- Durable storage: one association list per artifact kind, keyed by path.
A write shadows the previous entry, like a file overwrite. -/
structure Disk where
  indexFiles : List (String × List Vec)
  metadataFiles : List (String × List Meta)
  deriving DecidableEq, Repr

/-- A disk with no artifacts. -/
def Disk.empty : Disk := ⟨[], []⟩

/-- Association-list lookup (first entry wins, newest write first). -/
def assocGet (l : List (String × α)) (k : String) : Option α :=
  (l.find? (fun p => p.1 == k)).map (fun p => p.2)

/-- Association-list write. -/
def assocPut (l : List (String × α)) (k : String) (v : α) : List (String × α) :=
  (k, v) :: l

/-- Model of `FAISSIndex._save_index`: write both artifacts. Both call sites have set
`self.index` before saving, so the `none` branch is unreachable there. -/
def saveIndex (st : FAISSIndex) (d : Disk) : Disk :=
  match st.index with
  | some xb =>
    ⟨assocPut d.indexFiles (indexPath st) xb,
     assocPut d.metadataFiles (metadataPath st) st.metadata⟩
  | none => d

/-- Model of `FAISSIndex.create_index`. `norm` is the external per-row numeric pipeline
(float32 cast plus `faiss.normalize_L2`, applied row-wise). -/
def create_index (norm : Vec → Vec) (st : FAISSIndex) (d : Disk)
    (embeddings : List Vec) (chunk_metadata : List Meta) :
    Bool × FAISSIndex × Disk :=
  if embeddings.isEmpty then (false, st, d)
  else
    let valid := (embeddings.zip chunk_metadata).filter
      (fun p => validate_embedding st.dimension p.1)
    if valid.isEmpty then (false, st, d)
    else
      let st' := { st with index := some ((valid.map Prod.fst).map norm),
                           metadata := valid.map Prod.snd }
      (true, st', saveIndex st' d)

/-- Model of `FAISSIndex.load_index`: fails unless both artifacts exist. -/
def load_index (st : FAISSIndex) (d : Disk) : Bool × FAISSIndex :=
  match assocGet d.indexFiles (indexPath st),
      assocGet d.metadataFiles (metadataPath st) with
  | some xb, some md => (true, { st with index := some xb, metadata := md })
  | _, _ => (false, st)

/-- Model of `FAISSIndex.add_embeddings`. -/
def add_embeddings (norm : Vec → Vec) (st : FAISSIndex) (d : Disk)
    (embeddings : List Vec) (chunk_metadata : List Meta) :
    Bool × FAISSIndex × Disk :=
  match st.index with
  | none => (false, st, d)
  | some xb =>
    let valid := (embeddings.zip chunk_metadata).filter
      (fun p => validate_embedding st.dimension p.1)
    if valid.isEmpty then (false, st, d)
    else
      let st' := { st with index := some (xb ++ (valid.map Prod.fst).map norm),
                           metadata := st.metadata ++ valid.map Prod.snd }
      (true, st', saveIndex st' d)

/-- Inner product of the stored (already normalized) row with the normalized
query; exact on finite floats. -/
def dotF (a b : Vec) : ℚ := ((a.zip b).map (fun p => p.1.toRat * p.2.toRat)).sum

/-- Stable insertion into a list sorted by non-increasing score. -/
def insertDesc (x : ℚ × Nat) : List (ℚ × Nat) → List (ℚ × Nat)
  | [] => [x]
  | y :: ys => if x.1 ≤ y.1 then y :: insertDesc x ys else x :: y :: ys

/-- Sort score/index pairs by non-increasing score. -/
def sortDesc : List (ℚ × Nat) → List (ℚ × Nat)
  | [] => []
  | x :: xs => insertDesc x (sortDesc xs)

/-- Model of `faiss.IndexFlatIP.search` on the stored rows: exact inner-product
scores, all `k'` results returned in non-increasing score order. For
`k' ≤ ntotal` a flat index returns no negative sentinel indices, so result
indices are the `Nat` row numbers. -/
def faissSearchIP (xb : List Vec) (q : Vec) (k : Nat) : List (ℚ × Nat) :=
  (sortDesc (xb.enum.map (fun p => (dotF q p.2, p.1)))).take k

/-- Model of `FAISSIndex.search` (rag.py lines 151-195). The source guard
`idx >= 0 and idx < len(self.metadata)` keeps exactly the in-range rows
(`idx >= 0` holds for every row a flat search can return for `k' ≤ ntotal`). -/
def FAISSIndex.search (norm : Vec → Vec) (st : FAISSIndex)
    (query_embedding : Vec) (k : Nat) : List SearchResult :=
  match st.index with
  | none => []
  | some xb =>
    if !validate_embedding st.dimension query_embedding then []
    else
      let hits := faissSearchIP xb (norm query_embedding) (min k xb.length)
      (hits.filter (fun p => p.2 < st.metadata.length)).map (fun p =>
        let m := st.metadata.getD p.2 default
        ⟨m.chunk_id, m.content, m.heading, p.1, m⟩)

/-! ## RAGService (rag.py lines 248-347) -/

/-- Model of `RAGService.retrieve_relevant_chunks`. `embedOne` is the external
`EmbeddingService.get_single_embedding` collaborator (returns `[]` on
failure, which the code checks with `if not query_embedding`). -/
def retrieve_relevant_chunks (norm : Vec → Vec) (embedOne : String → Vec)
    (d : Disk) (query collection_id : String) (k : Nat) : List SearchResult :=
  let query_embedding := embedOne query
  if query_embedding.isEmpty then []
  else
    let index := FAISSIndex.init collection_id
    let r := load_index index d
    if !r.1 then [] else FAISSIndex.search norm r.2 query_embedding k

/-- Python `content[:n].rsplit(' ', 1)[0]`: cut at the last space if any. -/
def beforeLastSpace (l : List Char) : List Char :=
  let t := (l.reverse.takeWhile (fun c => c != ' ')).length
  if t < l.length then l.take (l.length - t - 1) else l

/-- Per-chunk truncation in `create_context_from_chunks`. -/
def truncContent (content : String) (per_chunk_max_chars : Nat) : String :=
  if content.length > per_chunk_max_chars then
    String.mk (beforeLastSpace (content.data.take per_chunk_max_chars)) ++ "..."
  else content

/-- Chunk formatting in `create_context_from_chunks`: heading line only when
the heading is non-empty. -/
def formatChunk (c : SearchResult) (per_chunk_max_chars : Nat) : String :=
  let content := truncContent c.content per_chunk_max_chars
  if c.heading != "" then "## " ++ c.heading ++ "\n" ++ content ++ "\n"
  else content ++ "\n"

/-- Model of `len(chunk_text.split()) * 1.3`, the token estimate (the literal 1.3 is
modelled as the exact rational 13/10). -/
def estTokens (s : String) : ℚ := (wordCount s : ℚ) * (13 / 10)

/-- The `context_parts` loop of `create_context_from_chunks`:
`current_tokens` is the running estimate; the loop breaks at the first chunk
whose inclusion would push the total over `max_tokens`. -/
def contextParts (chunks : List SearchResult) (max_tokens : ℚ)
    (per_chunk_max_chars : Nat) (current_tokens : ℚ) : List String :=
  match chunks with
  | [] => []
  | c :: rest =>
    let chunk_text := formatChunk c per_chunk_max_chars
    let chunk_tokens := estTokens chunk_text
    if current_tokens + chunk_tokens > max_tokens then []
    else chunk_text ::
      contextParts rest max_tokens per_chunk_max_chars (current_tokens + chunk_tokens)

/-- Model of `RAGService.create_context_from_chunks`. -/
def create_context_from_chunks (chunks : List SearchResult) (max_tokens : ℚ)
    (per_chunk_max_chars : Nat) : String :=
  String.intercalate "\n---\n" (contextParts chunks max_tokens per_chunk_max_chars 0)

/-- The validation/filter step shared by `create_index` and `add_embeddings`:
zip embeddings with their metadata and keep the pairs whose embedding
validates. -/
def validPairs (dimension : Nat) (e : List Vec) (m : List Meta) :
    List (Vec × Meta) :=
  (e.zip m).filter (fun p => validate_embedding dimension p.1)

/-! ## Helper lemmas -/

theorem mem_insertDesc {x y : ℚ × Nat} {l : List (ℚ × Nat)}
    (h : x ∈ insertDesc y l) : x = y ∨ x ∈ l := by
  induction l with
  | nil => simpa [insertDesc] using h
  | cons z zs ih =>
    by_cases hc : y.1 ≤ z.1
    · simp only [insertDesc, if_pos hc, List.mem_cons] at h
      rcases h with h | h
      · exact Or.inr (by simp [h])
      · rcases ih h with h' | h'
        · exact Or.inl h'
        · exact Or.inr (List.mem_cons_of_mem _ h')
    · simp only [insertDesc, if_neg hc, List.mem_cons] at h
      rcases h with h | h | h
      · exact Or.inl h
      · exact Or.inr (by simp [h])
      · exact Or.inr (List.mem_cons_of_mem _ h)

theorem mem_sortDesc {x : ℚ × Nat} {l : List (ℚ × Nat)}
    (h : x ∈ sortDesc l) : x ∈ l := by
  induction l with
  | nil => simp [sortDesc] at h
  | cons z zs ih =>
    simp only [sortDesc] at h
    rcases mem_insertDesc h with h' | h'
    · simp [h']
    · exact List.mem_cons_of_mem _ (ih h')

theorem length_insertDesc (x : ℚ × Nat) (l : List (ℚ × Nat)) :
    (insertDesc x l).length = l.length + 1 := by
  induction l with
  | nil => simp [insertDesc]
  | cons z zs ih =>
    by_cases hc : x.1 ≤ z.1
    · simp [insertDesc, if_pos hc, ih]
    · simp [insertDesc, if_neg hc]

theorem length_sortDesc (l : List (ℚ × Nat)) : (sortDesc l).length = l.length := by
  induction l with
  | nil => simp [sortDesc]
  | cons z zs ih => simp [sortDesc, length_insertDesc, ih]

theorem pairwise_insertDesc {x : ℚ × Nat} {l : List (ℚ × Nat)}
    (h : l.Pairwise (fun a b => b.1 ≤ a.1)) :
    (insertDesc x l).Pairwise (fun a b => b.1 ≤ a.1) := by
  induction l with
  | nil => simp [insertDesc]
  | cons z zs ih =>
    rcases List.pairwise_cons.mp h with ⟨hz, hzs⟩
    by_cases hc : x.1 ≤ z.1
    · simp only [insertDesc, if_pos hc]
      refine List.pairwise_cons.mpr ⟨?_, ih hzs⟩
      intro w hw
      rcases mem_insertDesc hw with h' | h'
      · simpa [h'] using hc
      · exact hz w h'
    · simp only [insertDesc, if_neg hc]
      refine List.pairwise_cons.mpr ⟨?_, h⟩
      intro w hw
      rcases List.mem_cons.mp hw with h' | h'
      · rw [h']; exact le_of_not_le hc
      · exact le_trans (hz w h') (le_of_not_le hc)

theorem pairwise_sortDesc (l : List (ℚ × Nat)) :
    (sortDesc l).Pairwise (fun a b => b.1 ≤ a.1) := by
  induction l with
  | nil => simp [sortDesc]
  | cons z zs ih => exact pairwise_insertDesc ih

theorem mem_enumFrom_fst {α : Type _} {x : Nat × α} :
    ∀ {l : List α} {n : Nat}, x ∈ l.enumFrom n → n ≤ x.1 ∧ x.1 < n + l.length := by
  intro l
  induction l with
  | nil => intro n h; simp [List.enumFrom] at h
  | cons a as ih =>
    intro n h
    simp only [List.enumFrom, List.mem_cons] at h
    simp only [List.length_cons]
    rcases h with h | h
    · simp [h]
    · have := ih h
      constructor <;> omega

theorem mem_enum_fst_lt {α : Type _} {x : Nat × α} {l : List α}
    (h : x ∈ l.enum) : x.1 < l.length := by
  have := mem_enumFrom_fst (l := l) (n := 0) (by simpa [List.enum] using h)
  omega

theorem zip_take_min {α β : Type _} :
    ∀ (e : List α) (m : List β),
      e.zip m = (e.take (min e.length m.length)).zip (m.take (min e.length m.length))
  | [], _ => by simp
  | _ :: _, [] => by simp
  | a :: e, b :: m => by
    simp only [List.length_cons, List.zip_cons_cons]
    have h : min (e.length + 1) (m.length + 1) = min e.length m.length + 1 := by omega
    rw [h, List.take_succ_cons, List.take_succ_cons, List.zip_cons_cons]
    exact congrArg _ (zip_take_min e m)

theorem zip_filter_fst_length {α β : Type _} (P : α → Bool) :
    ∀ (e : List α) (m : List β), e.length ≤ m.length →
      ((e.zip m).filter (fun p => P p.1)).length = (e.filter P).length
  | [], _, _ => by simp
  | a :: e, [], h => by simp at h
  | a :: e, b :: m, h => by
    simp only [List.zip_cons_cons, List.filter_cons]
    have h' : e.length ≤ m.length := by simpa using h
    by_cases hp : P a
    · simp [hp, zip_filter_fst_length P e m h']
    · simp [hp, zip_filter_fst_length P e m h']

theorem assocGet_put {α : Type _} (l : List (String × α)) (k : String) (v : α) :
    assocGet (assocPut l k v) k = some v := by
  simp [assocGet, assocPut, List.find?]

theorem isEmpty_false_of_ne_nil {α : Type _} {l : List α} (h : l ≠ []) :
    l.isEmpty = false := by
  cases l with
  | nil => exact absurd rfl h
  | cons a as => rfl

theorem create_index_spec (norm : Vec → Vec) (st0 : FAISSIndex) (d : Disk)
    (e : List Vec) (m : List Meta) (h1 : validPairs st0.dimension e m ≠ []) :
    create_index norm st0 d e m =
      (true,
       { st0 with
          index := some (((validPairs st0.dimension e m).map Prod.fst).map norm),
          metadata := (validPairs st0.dimension e m).map Prod.snd },
       saveIndex
         { st0 with
            index := some (((validPairs st0.dimension e m).map Prod.fst).map norm),
            metadata := (validPairs st0.dimension e m).map Prod.snd } d) := by
  have he : e ≠ [] := by
    intro h
    exact h1 (by simp [validPairs, h])
  rw [create_index, if_neg (by simp [isEmpty_false_of_ne_nil he]),
    if_neg (by simp [show ((e.zip m).filter
      (fun p => validate_embedding st0.dimension p.1)) ≠ [] from h1])]
  rfl

theorem add_embeddings_spec (norm : Vec → Vec) (cid : String) (dim : Nat)
    (xb : List Vec) (md : List Meta) (d : Disk) (e : List Vec) (m : List Meta)
    (h1 : validPairs dim e m ≠ []) :
    add_embeddings norm ⟨cid, dim, some xb, md⟩ d e m =
      (true,
       ⟨cid, dim, some (xb ++ ((validPairs dim e m).map Prod.fst).map norm),
        md ++ (validPairs dim e m).map Prod.snd⟩,
       saveIndex
         ⟨cid, dim, some (xb ++ ((validPairs dim e m).map Prod.fst).map norm),
          md ++ (validPairs dim e m).map Prod.snd⟩ d) := by
  rw [add_embeddings]
  dsimp only
  rw [if_neg (by simp [show ((e.zip m).filter
    (fun p => validate_embedding dim p.1)) ≠ [] from h1])]
  rfl

theorem load_after_save (cid : String) (dim : Nat) (xb : List Vec)
    (md : List Meta) (st2 : FAISSIndex) (hcid : st2.collection_id = cid)
    (d : Disk) :
    load_index st2 (saveIndex ⟨cid, dim, some xb, md⟩ d) =
      (true, { st2 with index := some xb, metadata := md }) := by
  unfold load_index saveIndex
  dsimp only
  have hp : indexPath st2 = indexPath ⟨cid, dim, some xb, md⟩ := by
    rw [indexPath, indexPath, hcid]
  have hp2 : metadataPath st2 = metadataPath ⟨cid, dim, some xb, md⟩ := by
    rw [metadataPath, metadataPath, hcid]
  rw [hp, hp2, assocGet_put, assocGet_put]

/-! ## Claim theorems -/

/-- C7: for every text (and any tokenizer and positive configured overlap),
`_create_overlap` returns the whole text plus a trailing space when the text
encodes to at most `chunk_overlap` tokens, and otherwise the decoding of the
last `chunk_overlap` tokens followed by a trailing space. -/
theorem create_overlap_last_tokens (ch : Chunker) (hco : 0 < ch.chunk_overlap)
    (text : String) :
    (countTokens ch.enc text ≤ ch.chunk_overlap →
      createOverlap ch text = text ++ " ") ∧
    (ch.chunk_overlap < countTokens ch.enc text →
      createOverlap ch text =
        ch.enc.decode ((ch.enc.encode text).drop
          ((ch.enc.encode text).length - ch.chunk_overlap)) ++ " ") := by
  constructor
  · intro h
    simp only [countTokens] at h
    simp [createOverlap, h]
  · intro h
    simp only [countTokens] at h
    have h' : ¬(ch.enc.encode text).length ≤ ch.chunk_overlap := by omega
    simp only [createOverlap, if_neg h', pyLastSlice, if_neg (Nat.pos_iff_ne_zero.mp hco)]

/-- Witness for C7 at a concrete tokenizer, overlap 2 and text of 3 tokens. -/
theorem create_overlap_last_tokens_witness :
    createOverlap ⟨800, 2, charEnc⟩ "abc" =
      charEnc.decode ((charEnc.encode "abc").drop
        ((charEnc.encode "abc").length - 2)) ++ " " :=
  (create_overlap_last_tokens ⟨800, 2, charEnc⟩ (by decide) "abc").2 (by decide)

/-- C8: `retrieve_relevant_chunks` returns `[]` (rather than raising) whenever
either persisted artifact of the collection's index is missing from disk. -/
theorem retrieve_missing_index_empty (norm : Vec → Vec)
    (embedOne : String → Vec) (d : Disk) (query collection_id : String) (k : Nat)
    (hmiss :
      assocGet d.indexFiles (indexPath (FAISSIndex.init collection_id)) = none ∨
      assocGet d.metadataFiles (metadataPath (FAISSIndex.init collection_id)) = none) :
    retrieve_relevant_chunks norm embedOne d query collection_id k = [] := by
  unfold retrieve_relevant_chunks
  by_cases hq : (embedOne query).isEmpty
  · simp [hq]
  · cases hx : assocGet d.indexFiles (indexPath (FAISSIndex.init collection_id)) <;>
      cases hy : assocGet d.metadataFiles (metadataPath (FAISSIndex.init collection_id)) <;>
      simp_all [load_index]

/-- Witness for C8: empty disk, any query, any embedding provider. -/
theorem retrieve_missing_index_empty_witness :
    retrieve_relevant_chunks id (fun _ => [F.fin 1]) Disk.empty "q" "c" 5 = [] :=
  retrieve_missing_index_empty id (fun _ => [F.fin 1]) Disk.empty "q" "c" 5
    (Or.inl rfl)

/-- C9: `create_index` and `add_embeddings` never check the length mismatch:
each behaves exactly as if both lists were truncated to the shorter length,
pairing positionally and ignoring the excess elements. -/
theorem create_add_pair_up_to_shorter (norm : Vec → Vec) (st : FAISSIndex)
    (d : Disk) (e : List Vec) (m : List Meta) :
    (create_index norm st d e m =
      create_index norm st d (e.take (min e.length m.length))
        (m.take (min e.length m.length))) ∧
    (add_embeddings norm st d e m =
      add_embeddings norm st d (e.take (min e.length m.length))
        (m.take (min e.length m.length))) := by
  rcases e with _ | ⟨a, e⟩
  · constructor
    · simp [create_index]
    · cases hst : st.index <;> simp [add_embeddings, hst]
  rcases m with _ | ⟨b, m⟩
  · constructor
    · simp [create_index]
    · cases hst : st.index <;> simp [add_embeddings, hst]
  · have hmin : min (a :: e).length (b :: m).length = min e.length m.length + 1 := by
      simp only [List.length_cons]; omega
    have hz := zip_take_min (a :: e) (b :: m)
    rw [hmin] at hz
    simp only [List.take_succ_cons] at hz
    constructor
    · simp only [create_index, hmin, List.take_succ_cons, ← hz]
      simp
    · cases hst : st.index <;>
        simp only [add_embeddings, hst, hmin, List.take_succ_cons, ← hz]

/-- C1: vector/metadata alignment. After a successful `create_index` the stored
rows are exactly the normalized valid embeddings and the metadata list the
paired records, in the same order (so counts agree and row `i` was produced
with `metadata[i]`); a successful `add_embeddings` appends both in the same
order, preserving the prefix; and a fresh instance's `load_index` of the saved
artifacts restores the same rows and metadata. -/
theorem alignment_create_add_save_load (norm : Vec → Vec) (st0 : FAISSIndex)
    (d : Disk) (e : List Vec) (m : List Meta) (e2 : List Vec) (m2 : List Meta)
    (valid valid2 : List (Vec × Meta)) (r r2 : Bool × FAISSIndex × Disk)
    (l : Bool × FAISSIndex)
    (hv : valid = validPairs st0.dimension e m)
    (hv2 : valid2 = validPairs st0.dimension e2 m2)
    (hr : r = create_index norm st0 d e m)
    (hr2 : r2 = add_embeddings norm r.2.1 r.2.2 e2 m2)
    (hl : l = load_index (FAISSIndex.init st0.collection_id) r2.2.2)
    (h1 : valid ≠ []) (h2 : valid2 ≠ []) :
    r.1 = true ∧
    r.2.1.index = some ((valid.map Prod.fst).map norm) ∧
    r.2.1.metadata = valid.map Prod.snd ∧
    ntotal r.2.1 = r.2.1.metadata.length ∧
    r2.1 = true ∧
    r2.2.1.index = some (((valid ++ valid2).map Prod.fst).map norm) ∧
    r2.2.1.metadata = (valid ++ valid2).map Prod.snd ∧
    ntotal r2.2.1 = r2.2.1.metadata.length ∧
    l.1 = true ∧
    l.2.index = r2.2.1.index ∧
    l.2.metadata = r2.2.1.metadata := by
  subst hv hv2 hr hr2 hl
  rw [create_index_spec norm st0 d e m h1]
  dsimp only
  rw [add_embeddings_spec norm st0.collection_id st0.dimension _ _ _ e2 m2 h2]
  dsimp only
  rw [load_after_save st0.collection_id st0.dimension _ _
    (FAISSIndex.init st0.collection_id) rfl _]
  dsimp only
  refine ⟨rfl, rfl, rfl, ?_, rfl, ?_, ?_, ?_, rfl, rfl, rfl⟩
  · simp [ntotal]
  · simp [List.map_append]
  · simp [List.map_append]
  · simp [ntotal]

/-- Witness for C1: one valid embedding created, one added, then reloaded by a
fresh instance; the restored state matches the in-memory one. -/
theorem alignment_create_add_save_load_witness :
    (load_index (FAISSIndex.init "c")
      (add_embeddings id
        (create_index id ⟨"c", 2, none, []⟩ Disk.empty [[F.fin 1, F.fin 0]]
          [⟨some "a", "ca", "ha"⟩]).2.1
        (create_index id ⟨"c", 2, none, []⟩ Disk.empty [[F.fin 1, F.fin 0]]
          [⟨some "a", "ca", "ha"⟩]).2.2
        [[F.fin 0, F.fin 1]] [⟨some "b", "cb", "hb"⟩]).2.2).1 = true ∧
    (load_index (FAISSIndex.init "c")
      (add_embeddings id
        (create_index id ⟨"c", 2, none, []⟩ Disk.empty [[F.fin 1, F.fin 0]]
          [⟨some "a", "ca", "ha"⟩]).2.1
        (create_index id ⟨"c", 2, none, []⟩ Disk.empty [[F.fin 1, F.fin 0]]
          [⟨some "a", "ca", "ha"⟩]).2.2
        [[F.fin 0, F.fin 1]] [⟨some "b", "cb", "hb"⟩]).2.2).2.index =
      (add_embeddings id
        (create_index id ⟨"c", 2, none, []⟩ Disk.empty [[F.fin 1, F.fin 0]]
          [⟨some "a", "ca", "ha"⟩]).2.1
        (create_index id ⟨"c", 2, none, []⟩ Disk.empty [[F.fin 1, F.fin 0]]
          [⟨some "a", "ca", "ha"⟩]).2.2
        [[F.fin 0, F.fin 1]] [⟨some "b", "cb", "hb"⟩]).2.1.index ∧
    (load_index (FAISSIndex.init "c")
      (add_embeddings id
        (create_index id ⟨"c", 2, none, []⟩ Disk.empty [[F.fin 1, F.fin 0]]
          [⟨some "a", "ca", "ha"⟩]).2.1
        (create_index id ⟨"c", 2, none, []⟩ Disk.empty [[F.fin 1, F.fin 0]]
          [⟨some "a", "ca", "ha"⟩]).2.2
        [[F.fin 0, F.fin 1]] [⟨some "b", "cb", "hb"⟩]).2.2).2.metadata =
      (add_embeddings id
        (create_index id ⟨"c", 2, none, []⟩ Disk.empty [[F.fin 1, F.fin 0]]
          [⟨some "a", "ca", "ha"⟩]).2.1
        (create_index id ⟨"c", 2, none, []⟩ Disk.empty [[F.fin 1, F.fin 0]]
          [⟨some "a", "ca", "ha"⟩]).2.2
        [[F.fin 0, F.fin 1]] [⟨some "b", "cb", "hb"⟩]).2.1.metadata :=
  (alignment_create_add_save_load id ⟨"c", 2, none, []⟩ Disk.empty
    [[F.fin 1, F.fin 0]] [⟨some "a", "ca", "ha"⟩]
    [[F.fin 0, F.fin 1]] [⟨some "b", "cb", "hb"⟩]
    _ _ _ _ _ rfl rfl rfl rfl rfl (by decide) (by decide)).2.2.2.2.2.2.2.2

/-- C3: with equally long inputs, `create_index` succeeds whenever at least one
embedding validates, storing exactly N vectors and N metadata records where N
is the number of valid embeddings (invalid ones dropped with their paired
metadata); with zero valid embeddings it returns `False` and leaves both the
in-memory state and the disk untouched. -/
theorem create_index_drops_invalid (norm : Vec → Vec) (st0 : FAISSIndex)
    (d : Disk) (e : List Vec) (m : List Meta) (hlen : e.length = m.length) :
    (validPairs st0.dimension e m ≠ [] →
      (create_index norm st0 d e m).1 = true ∧
      ntotal (create_index norm st0 d e m).2.1 =
        (e.filter (validate_embedding st0.dimension)).length ∧
      (create_index norm st0 d e m).2.1.metadata.length =
        (e.filter (validate_embedding st0.dimension)).length) ∧
    (validPairs st0.dimension e m = [] →
      (create_index norm st0 d e m).1 = false ∧
      (create_index norm st0 d e m).2.1 = st0 ∧
      (create_index norm st0 d e m).2.2 = d) := by
  constructor
  · intro h1
    rw [create_index_spec norm st0 d e m h1]
    refine ⟨rfl, ?_, ?_⟩
    · simp only [ntotal, List.length_map, validPairs]
      exact zip_filter_fst_length _ e m (le_of_eq hlen)
    · simp only [List.length_map, validPairs]
      exact zip_filter_fst_length _ e m (le_of_eq hlen)
  · intro h0
    by_cases he : e = []
    · subst he
      exact ⟨rfl, rfl, rfl⟩
    · rw [create_index, if_neg (by simp [isEmpty_false_of_ne_nil he]),
        if_pos (by simp [show ((e.zip m).filter
          (fun p => validate_embedding st0.dimension p.1)) = [] from h0])]
      exact ⟨rfl, rfl, rfl⟩

/-- Witness for C3: one valid plus one wrong-dimension embedding stores exactly
one pair; a single non-finite embedding fails and leaves state and disk
untouched. -/
theorem create_index_drops_invalid_witness :
    ((create_index id ⟨"c", 2, none, []⟩ Disk.empty
        [[F.fin 1, F.fin 0], [F.fin 1]]
        [⟨some "a", "ca", "ha"⟩, ⟨some "b", "cb", "hb"⟩]).1 = true ∧
      ntotal (create_index id ⟨"c", 2, none, []⟩ Disk.empty
        [[F.fin 1, F.fin 0], [F.fin 1]]
        [⟨some "a", "ca", "ha"⟩, ⟨some "b", "cb", "hb"⟩]).2.1 =
        (([[F.fin 1, F.fin 0], [F.fin 1]] : List Vec).filter
          (validate_embedding 2)).length ∧
      (create_index id ⟨"c", 2, none, []⟩ Disk.empty
        [[F.fin 1, F.fin 0], [F.fin 1]]
        [⟨some "a", "ca", "ha"⟩, ⟨some "b", "cb", "hb"⟩]).2.1.metadata.length =
        (([[F.fin 1, F.fin 0], [F.fin 1]] : List Vec).filter
          (validate_embedding 2)).length) ∧
    ((create_index id ⟨"c", 2, none, []⟩ Disk.empty
        [[F.nan, F.fin 0]] [⟨some "a", "ca", "ha"⟩]).1 = false ∧
      (create_index id ⟨"c", 2, none, []⟩ Disk.empty
        [[F.nan, F.fin 0]] [⟨some "a", "ca", "ha"⟩]).2.1 = ⟨"c", 2, none, []⟩ ∧
      (create_index id ⟨"c", 2, none, []⟩ Disk.empty
        [[F.nan, F.fin 0]] [⟨some "a", "ca", "ha"⟩]).2.2 = Disk.empty) :=
  ⟨(create_index_drops_invalid id ⟨"c", 2, none, []⟩ Disk.empty
      [[F.fin 1, F.fin 0], [F.fin 1]]
      [⟨some "a", "ca", "ha"⟩, ⟨some "b", "cb", "hb"⟩] rfl).1 (by decide),
   (create_index_drops_invalid id ⟨"c", 2, none, []⟩ Disk.empty
      [[F.nan, F.fin 0]] [⟨some "a", "ca", "ha"⟩] rfl).2 (by decide)⟩

/-- C5: on a loaded index of `n` aligned vectors, a valid query returns exactly
`min k n` results ordered by non-increasing score (so at most `min k n`, and
`k = 5` on 3 vectors gives exactly 3). -/
theorem search_returns_min_k_sorted (norm : Vec → Vec) (st : FAISSIndex)
    (xb : List Vec) (q : Vec) (k : Nat)
    (hidx : st.index = some xb) (halign : st.metadata.length = xb.length)
    (hq : validate_embedding st.dimension q = true) :
    (FAISSIndex.search norm st q k).length = min k xb.length ∧
    (FAISSIndex.search norm st q k).Pairwise (fun a b => b.score ≤ a.score) := by
  have hres : FAISSIndex.search norm st q k =
      ((faissSearchIP xb (norm q) (min k xb.length)).filter
        (fun p => p.2 < st.metadata.length)).map (fun p =>
          let m := st.metadata.getD p.2 default
          ⟨m.chunk_id, m.content, m.heading, p.1, m⟩) := by
    simp [FAISSIndex.search, hidx, hq]
  have hall : ∀ p ∈ faissSearchIP xb (norm q) (min k xb.length),
      decide (p.2 < st.metadata.length) = true := by
    intro p hp
    simp only [faissSearchIP] at hp
    have hs := mem_sortDesc (List.mem_of_mem_take hp)
    rcases List.mem_map.mp hs with ⟨ip, hip, hipe⟩
    have hlt := mem_enum_fst_lt hip
    have hp2 : p.2 = ip.1 := by rw [← hipe]
    simp only [decide_eq_true_eq, hp2, halign]
    exact hlt
  have hfilter : (faissSearchIP xb (norm q) (min k xb.length)).filter
      (fun p => p.2 < st.metadata.length) =
      faissSearchIP xb (norm q) (min k xb.length) :=
    List.filter_eq_self.mpr hall
  constructor
  · rw [hres, List.length_map, hfilter]
    simp only [faissSearchIP, List.length_take, length_sortDesc,
      List.length_map, List.enum_length]
    omega
  · rw [hres]
    apply List.pairwise_map.mpr
    rw [hfilter]
    simp only [faissSearchIP]
    exact List.Pairwise.sublist (List.take_sublist _ _) (pairwise_sortDesc _)

/-- Witness for C5: three stored vectors, aligned metadata, `k = 5`. -/
theorem search_returns_min_k_sorted_witness :
    (FAISSIndex.search id
      ⟨"c", 2, some [[F.fin 1, F.fin 0], [F.fin 0, F.fin 1],
        [F.fin (1/2), F.fin (1/2)]],
       [⟨some "a", "ca", "ha"⟩, ⟨some "b", "cb", "hb"⟩, ⟨some "d", "cd", "hd"⟩]⟩
      [F.fin 1, F.fin 0] 5).length =
      min 5 ([[F.fin 1, F.fin 0], [F.fin 0, F.fin 1],
        [F.fin (1/2), F.fin (1/2)]] : List Vec).length ∧
    (FAISSIndex.search id
      ⟨"c", 2, some [[F.fin 1, F.fin 0], [F.fin 0, F.fin 1],
        [F.fin (1/2), F.fin (1/2)]],
       [⟨some "a", "ca", "ha"⟩, ⟨some "b", "cb", "hb"⟩, ⟨some "d", "cd", "hd"⟩]⟩
      [F.fin 1, F.fin 0] 5).Pairwise (fun a b => b.score ≤ a.score) :=
  search_returns_min_k_sorted id _ _ [F.fin 1, F.fin 0] 5 rfl (by decide) (by decide)

/-- C10: every result `search` returns is built from a metadata record at an
in-range position: rows with no metadata are silently dropped, and the
`self.metadata[idx]` access is always within bounds. -/
theorem search_results_within_metadata (norm : Vec → Vec) (st : FAISSIndex)
    (q : Vec) (k : Nat) (r : SearchResult)
    (hr : r ∈ FAISSIndex.search norm st q k) :
    ∃ i, i < st.metadata.length ∧
      r.metadata = st.metadata.getD i default ∧
      r.chunk_id = (st.metadata.getD i default).chunk_id ∧
      r.content = (st.metadata.getD i default).content ∧
      r.heading = (st.metadata.getD i default).heading := by
  cases hidx : st.index with
  | none => simp [FAISSIndex.search, hidx] at hr
  | some xb =>
    by_cases hq : validate_embedding st.dimension q
    · simp only [FAISSIndex.search, hidx, hq, Bool.not_true, Bool.false_eq_true,
        if_false] at hr
      rcases List.mem_map.mp hr with ⟨p, hp, hpe⟩
      have hlt : p.2 < st.metadata.length := by
        have := (List.mem_filter.mp hp).2
        simpa using this
      exact ⟨p.2, hlt, by rw [← hpe], by rw [← hpe], by rw [← hpe], by rw [← hpe]⟩
    · simp [FAISSIndex.search, hidx, hq] at hr

/-- Witness for C10: a store of 3 rows over a single metadata record yields one
result, drawn from metadata position 0. -/
theorem search_results_within_metadata_witness :
    (FAISSIndex.search id
      ⟨"c", 2, some [[F.fin 1, F.fin 0], [F.fin 0, F.fin 1], [F.fin 1, F.fin 1]],
       [⟨some "only", "co", "ho"⟩]⟩ [F.fin 1, F.fin 0] 3).length = 1 ∧
    ∃ i, i < ([⟨some "only", "co", "ho"⟩] : List Meta).length ∧
      (⟨some "only", "co", "ho", 1, ⟨some "only", "co", "ho"⟩⟩ : SearchResult).metadata =
        ([⟨some "only", "co", "ho"⟩] : List Meta).getD i default ∧
      (⟨some "only", "co", "ho", 1, ⟨some "only", "co", "ho"⟩⟩ : SearchResult).chunk_id =
        (([⟨some "only", "co", "ho"⟩] : List Meta).getD i default).chunk_id ∧
      (⟨some "only", "co", "ho", 1, ⟨some "only", "co", "ho"⟩⟩ : SearchResult).content =
        (([⟨some "only", "co", "ho"⟩] : List Meta).getD i default).content ∧
      (⟨some "only", "co", "ho", 1, ⟨some "only", "co", "ho"⟩⟩ : SearchResult).heading =
        (([⟨some "only", "co", "ho"⟩] : List Meta).getD i default).heading :=
  ⟨by norm_num [FAISSIndex.search, validate_embedding, F.isFinite, faissSearchIP,
      dotF, F.toRat, sortDesc, insertDesc, List.enum, List.enumFrom],
   search_results_within_metadata id
     ⟨"c", 2, some [[F.fin 1, F.fin 0], [F.fin 0, F.fin 1], [F.fin 1, F.fin 1]],
      [⟨some "only", "co", "ho"⟩]⟩ [F.fin 1, F.fin 0] 3
     ⟨some "only", "co", "ho", 1, ⟨some "only", "co", "ho"⟩⟩
     (by norm_num [FAISSIndex.search, validate_embedding, F.isFinite, faissSearchIP,
       dotF, F.toRat, sortDesc, insertDesc, List.enum, List.enumFrom])⟩

theorem contextParts_spec (per_chunk_max_chars : Nat) (max_tokens : ℚ) :
    ∀ (chunks : List SearchResult) (cur : ℚ), cur ≤ max_tokens →
      ∃ p, contextParts chunks max_tokens per_chunk_max_chars cur =
            (chunks.take p).map (fun c => formatChunk c per_chunk_max_chars) ∧
          cur + ((contextParts chunks max_tokens per_chunk_max_chars cur).map
            estTokens).sum ≤ max_tokens ∧
          (p < chunks.length →
            cur + ((contextParts chunks max_tokens per_chunk_max_chars cur).map
              estTokens).sum +
              estTokens (formatChunk (chunks.getD p default) per_chunk_max_chars) >
              max_tokens) := by
  intro chunks
  induction chunks with
  | nil =>
    intro cur hcur
    refine ⟨0, by simp [contextParts], by simpa [contextParts] using hcur, ?_⟩
    intro h
    simp at h
  | cons c rest ih =>
    intro cur hcur
    by_cases hc : cur + estTokens (formatChunk c per_chunk_max_chars) > max_tokens
    · refine ⟨0, ?_, ?_, ?_⟩
      · simp [contextParts, if_pos hc]
      · simpa [contextParts, if_pos hc] using hcur
      · intro _
        simp only [contextParts, if_pos hc, List.map_nil, List.sum_nil,
          List.getD_cons_zero]
        linarith
    · have hle : cur + estTokens (formatChunk c per_chunk_max_chars) ≤ max_tokens :=
        not_lt.mp hc
      obtain ⟨p, h1, h2, h3⟩ :=
        ih (cur + estTokens (formatChunk c per_chunk_max_chars)) hle
      refine ⟨p + 1, ?_, ?_, ?_⟩
      · simp only [contextParts, if_neg hc, List.take_succ_cons, List.map_cons]
        exact congrArg _ h1
      · simp only [contextParts, if_neg hc, List.map_cons, List.sum_cons]
        linarith
      · intro hp
        simp only [List.length_cons] at hp
        have := h3 (by omega)
        simp only [contextParts, if_neg hc, List.map_cons, List.sum_cons,
          List.getD_cons_succ]
        linarith

/-- C4: the context assembled by `create_context_from_chunks` is the formatted
prefix of the ranked chunks whose running token estimate stays within
`max_tokens`: the total estimate of the included parts never exceeds the
budget, scanning stopped at the first chunk whose wholesale inclusion would
exceed it, and the output joins exactly those whole formatted parts. -/
theorem context_within_budget (chunks : List SearchResult) (max_tokens : ℚ)
    (per_chunk_max_chars : Nat) (hmax : 0 ≤ max_tokens) :
    ∃ p,
      contextParts chunks max_tokens per_chunk_max_chars 0 =
        (chunks.take p).map (fun c => formatChunk c per_chunk_max_chars) ∧
      ((contextParts chunks max_tokens per_chunk_max_chars 0).map estTokens).sum
        ≤ max_tokens ∧
      (p < chunks.length →
        ((contextParts chunks max_tokens per_chunk_max_chars 0).map estTokens).sum
          + estTokens (formatChunk (chunks.getD p default) per_chunk_max_chars) >
          max_tokens) ∧
      create_context_from_chunks chunks max_tokens per_chunk_max_chars =
        String.intercalate "\n---\n"
          ((chunks.take p).map (fun c => formatChunk c per_chunk_max_chars)) := by
  obtain ⟨p, h1, h2, h3⟩ :=
    contextParts_spec per_chunk_max_chars max_tokens chunks 0 hmax
  refine ⟨p, h1, by linarith, fun hp => by linarith [h3 hp], ?_⟩
  rw [create_context_from_chunks, h1]

/-- Witness for C4: budget 4 admits the first chunk (estimate 2.6) and stops
before the second (estimate 7.8). -/
theorem context_within_budget_witness :
    ∃ p,
      contextParts [⟨none, "a b", "", 0, default⟩,
          ⟨none, "c d e f g h", "", 0, default⟩] 4 2000 0 =
        (([⟨none, "a b", "", 0, default⟩,
          ⟨none, "c d e f g h", "", 0, default⟩] : List SearchResult).take p).map
          (fun c => formatChunk c 2000) ∧
      ((contextParts [⟨none, "a b", "", 0, default⟩,
          ⟨none, "c d e f g h", "", 0, default⟩] 4 2000 0).map estTokens).sum ≤ 4 ∧
      (p < ([⟨none, "a b", "", 0, default⟩,
          ⟨none, "c d e f g h", "", 0, default⟩] : List SearchResult).length →
        ((contextParts [⟨none, "a b", "", 0, default⟩,
            ⟨none, "c d e f g h", "", 0, default⟩] 4 2000 0).map estTokens).sum
          + estTokens (formatChunk (([⟨none, "a b", "", 0, default⟩,
            ⟨none, "c d e f g h", "", 0, default⟩] : List SearchResult).getD p
              default) 2000) > 4) ∧
      create_context_from_chunks [⟨none, "a b", "", 0, default⟩,
          ⟨none, "c d e f g h", "", 0, default⟩] 4 2000 =
        String.intercalate "\n---\n"
          ((([⟨none, "a b", "", 0, default⟩,
            ⟨none, "c d e f g h", "", 0, default⟩] : List SearchResult).take p).map
            (fun c => formatChunk c 2000)) :=
  context_within_budget
    [⟨none, "a b", "", 0, default⟩, ⟨none, "c d e f g h", "", 0, default⟩]
    4 2000 (by norm_num)

theorem createChunksGo_fit_mem (ch : Chunker) (md : Option (List (String × String))) :
    ∀ (sections : List DocSection) (idx : Nat) (s : DocSection),
      s ∈ sections → countTokens ch.enc s.content ≤ ch.chunk_size →
      ∃ c ∈ createChunksGo ch md sections idx,
        c.content = pyStrip s.content ∧
        c.token_count = countTokens ch.enc s.content := by
  intro sections
  induction sections with
  | nil => intro idx s hs _; simp at hs
  | cons t rest ih =>
    intro idx s hs hfit
    rcases List.mem_cons.mp hs with h | h
    · subst h
      refine ⟨⟨idx, pyStrip s.content, s.heading, s.level,
        countTokens ch.enc s.content, md.getD []⟩, ?_, rfl, rfl⟩
      simp only [createChunksGo, if_pos hfit]
      exact List.mem_cons_self _ _
    · by_cases hfitt : countTokens ch.enc t.content ≤ ch.chunk_size
      · obtain ⟨c, hc, hprop⟩ := ih (idx + 1) s h hfit
        refine ⟨c, ?_, hprop⟩
        simp only [createChunksGo, if_pos hfitt]
        exact List.mem_cons_of_mem _ hc
      · obtain ⟨c, hc, hprop⟩ := ih (idx + (splitSection ch t idx md).length) s h hfit
        refine ⟨c, ?_, hprop⟩
        simp only [createChunksGo, if_neg hfitt]
        exact List.mem_append_right _ hc

/-- C2 (amended): a chunk's `token_count` is the chunker's measure of the
chunk's pre-strip text, not of the stored stripped `content`: every section
that fits within `chunk_size` yields a chunk whose `content` is the stripped
section text but whose `token_count` is `count_tokens` of the raw section
text (the two differ whenever stripping changes the token count; split
sections likewise carry incrementally accumulated counts). -/
theorem chunk_token_count_measures_prestrip_text (ch : Chunker) (text : String)
    (md : Option (List (String × String))) (s : DocSection)
    (hs : s ∈ identifySections (preprocessText text))
    (hfit : countTokens ch.enc s.content ≤ ch.chunk_size) :
    ∃ c ∈ chunkText ch text md,
      c.content = pyStrip s.content ∧
      c.token_count = countTokens ch.enc s.content := by
  unfold chunkText createChunks
  exact createChunksGo_fit_mem ch md _ 0 s hs hfit

set_option maxRecDepth 10000 in
/-- Witness for C2 (amended): `"Hello world"` yields the single section
`"Hello world\n"`, whose chunk stores the stripped content but counts the
tokens of the raw text. -/
theorem chunk_token_count_measures_prestrip_text_witness :
    ∃ c ∈ chunkText (Chunker.init charEnc) "Hello world" none,
      c.content = pyStrip (⟨"", "Hello world\n", 0⟩ : DocSection).content ∧
      c.token_count =
        countTokens charEnc (⟨"", "Hello world\n", 0⟩ : DocSection).content :=
  chunk_token_count_measures_prestrip_text (Chunker.init charEnc) "Hello world"
    none ⟨"", "Hello world\n", 0⟩ (by decide) (by decide)

set_option maxRecDepth 10000 in
/-- C2 counterexample: on input `"Hello world"` the produced chunk has
`token_count = 12` (the raw section text `"Hello world\n"`) while
`count_tokens` of its stored stripped content `"Hello world"` is 11. -/
theorem chunk_token_count_ne_content_tokens :
    ∃ c ∈ chunkText (Chunker.init charEnc) "Hello world" none,
      c.token_count ≠ countTokens charEnc c.content := by
  decide

theorem splitGo_chain (ch : Chunker) (heading : String) (level : Nat)
    (md : List (String × String)) :
    ∀ (sentences : List String) (buf : String) (tokens idx : Nat),
      List.Chain' (fun c1 c2 => ∃ raw tail, c1.content = pyStrip raw ∧
        c2.content = pyStrip (createOverlap ch raw ++ tail))
        (splitGo ch heading level md sentences buf tokens idx) ∧
      ∀ c ∈ (splitGo ch heading level md sentences buf tokens idx).head?,
        ∃ tail, c.content = pyStrip (buf ++ tail) := by
  intro sentences
  induction sentences with
  | nil =>
    intro buf tokens idx
    by_cases hb : pyStrip buf ≠ ""
    · constructor
      · simp [splitGo, if_pos hb]
      · intro c hc
        simp only [splitGo, if_pos hb, List.head?_cons, Option.mem_def,
          Option.some.injEq] at hc
        exact ⟨"", by rw [← hc, String.append_empty]⟩
    · constructor
      · simp [splitGo, if_neg hb]
      · intro c hc
        simp [splitGo, if_neg hb] at hc
  | cons s rest ih =>
    intro buf tokens idx
    by_cases hcond : tokens + countTokens ch.enc s > ch.chunk_size ∧ buf ≠ ""
    · obtain ⟨chain_rest, head_rest⟩ := ih (createOverlap ch buf ++ s)
        (countTokens ch.enc (createOverlap ch buf ++ s)) (idx + 1)
      constructor
      · simp only [splitGo, if_pos hcond]
        refine List.chain'_cons'.mpr ⟨?_, chain_rest⟩
        intro b hb
        obtain ⟨tail, htail⟩ := head_rest b hb
        exact ⟨buf, s ++ tail, rfl, by rw [htail, String.append_assoc]⟩
      · intro c hc
        simp only [splitGo, if_pos hcond, List.head?_cons, Option.mem_def,
          Option.some.injEq] at hc
        exact ⟨"", by rw [← hc, String.append_empty]⟩
    · obtain ⟨chain_rest, head_rest⟩ := ih (buf ++ s)
        (tokens + countTokens ch.enc s) idx
      constructor
      · simp only [splitGo, if_neg hcond]
        exact chain_rest
      · intro c hc
        simp only [splitGo, if_neg hcond] at hc
        obtain ⟨tail, htail⟩ := head_rest c hc
        exact ⟨s ++ tail, by rw [htail, String.append_assoc]⟩

/-- C6 (amended): `_split_section` may yield a single chunk even for a section
whose token count exceeds `chunk_size` (see the counterexample); what always
holds is the overlap seeding between consecutive chunks: whenever the output
has two consecutive chunks, the earlier one stores some pre-strip buffer
stripped, and the later one stores (stripped) `_create_overlap` of that very
buffer followed by the subsequently packed sentences. -/
theorem split_section_overlap_chain (ch : Chunker) (sec : DocSection)
    (start_index : Nat) (md : Option (List (String × String))) :
    List.Chain' (fun c1 c2 => ∃ raw tail, c1.content = pyStrip raw ∧
      c2.content = pyStrip (createOverlap ch raw ++ tail))
      (splitSection ch sec start_index md) :=
  (splitGo_chain ch sec.heading sec.level (md.getD [])
    (splitIntoSentences sec.content) "" 0 start_index).1

set_option maxRecDepth 3000000 in
/-- C6 counterexample: a section of 801 `'a'`s (one sentence, 802 tokens under
`charEnc`, exceeding the configured `chunk_size` of 800) is split into exactly
one chunk, not at least two. -/
theorem split_section_oversized_single_chunk :
    (Chunker.init charEnc).chunk_size <
      countTokens charEnc
        (⟨"", String.mk (List.replicate 801 'a') ++ "\n", 0⟩ : DocSection).content ∧
    (splitSection (Chunker.init charEnc)
      ⟨"", String.mk (List.replicate 801 'a') ++ "\n", 0⟩ 0 none).length = 1 := by
  constructor
  · decide
  · decide

end ActiveRecall
